import Mathlib

/-!
Verification of the viseme-timeline pipeline (`visemes/map.py`,
`visemes/smooth.py`, `render/renderer.py`).  Machine floats are modelled as
exact rationals; Python `assert` failures are modelled by `Option`-valued
functions returning `none`.
-/

namespace Pipeline

/-- Visual mouth-shape interval (`models.Viseme`): a category name together
with start and end times in seconds.  The Python field `end` is called
`stop` here because `end` is a Lean keyword. -/
structure Viseme where
  name : String
  start : ℚ
  stop : ℚ
deriving DecidableEq, Repr

/-- Aligned phoneme interval (`models.Phoneme`). -/
structure Phoneme where
  symbol : String
  start : ℚ
  stop : ℚ
deriving DecidableEq, Repr

/-- `MIN_VISEME_DURATION = 0.08` seconds (`visemes/smooth.py`). -/
def MIN_VISEME_DURATION : ℚ := 8 / 100

/-- `PLOSIVE_VISEME_NAME = "PBM"` (`visemes/smooth.py`). -/
def PLOSIVE_VISEME_NAME : String := "PBM"

/-- `PLOSIVE_STRETCH_FACTOR = 1.2` (`visemes/smooth.py`). -/
def PLOSIVE_STRETCH_FACTOR : ℚ := 12 / 10

/-- The merge tolerance `1e-6` used by `_merge_adjacent_identical`. -/
def MERGE_TOLERANCE : ℚ := 1 / 1000000

/-- The static ARPAbet symbol to viseme-category table `PHONEME_TO_VISEME`
from `visemes/map.py`, as an association list. -/
def PHONEME_TO_VISEME : List (String × String) :=
  [("P", "PBM"), ("B", "PBM"), ("M", "PBM"),
   ("F", "FV"), ("V", "FV"),
   ("TH", "TH"), ("DH", "TH"),
   ("S", "SZ"), ("Z", "SZ"),
   ("CH", "CHJ"), ("JH", "CHJ"),
   ("K", "KNG"), ("G", "KNG"), ("NG", "KNG"),
   ("Y", "Y"),
   ("UW", "UW"), ("UH", "UW"), ("OW", "UW"), ("W", "UW"),
   ("AA", "AA"), ("AE", "AA"), ("AH", "AA"), ("AO", "AA"),
   ("IY", "IY"), ("IH", "IY"), ("EY", "IY"), ("EH", "IY"),
   ("ER", "ER"), ("R", "ER"),
   ("L", "L"),
   ("HH", "REST"), ("SIL", "REST")]

/-- The fixed closed set of viseme categories: the values of the mapping
table together with the neutral fallback "REST". -/
def VISEME_CATEGORIES : List String :=
  ["PBM", "FV", "TH", "SZ", "CHJ", "KNG", "Y", "UW", "AA", "IY", "ER", "L",
   "REST"]

/-- `_normalize_symbol` from `visemes/map.py`: strip surrounding whitespace,
uppercase, and drop one trailing stress digit 0/1/2 if present. -/
def normalize_symbol (symbol : String) : String :=
  let s := symbol.trim.toUpper
  if s ≠ "" ∧ (s.back = '0' ∨ s.back = '1' ∨ s.back = '2') then
    s.dropRight 1
  else s

/-- `phonemes_to_visemes` from `visemes/map.py`.  The Python `assert
p.end >= p.start` is modelled by returning `none` when violated. -/
def phonemes_to_visemes : List Phoneme → Option (List Viseme)
  | [] => some []
  | p :: rest =>
    if p.start ≤ p.stop then
      (phonemes_to_visemes rest).map (fun vs =>
        { name := (PHONEME_TO_VISEME.lookup (normalize_symbol p.symbol)).getD
            "REST",
          start := p.start, stop := p.stop } :: vs)
    else none

/-- The accumulator loop of `_merge_adjacent_identical` (`visemes/smooth.py`):
`current` is the span being built; the in-loop
`assert v.start >= current.start` is modelled by returning `none`. -/
def mergeLoop (current : Viseme) : List Viseme → Option (List Viseme)
  | [] => some [current]
  | v :: rest =>
    if current.start ≤ v.start then
      if v.name = current.name ∧ |v.start - current.stop| < MERGE_TOLERANCE
      then
        mergeLoop { name := current.name, start := current.start,
                    stop := max current.stop v.stop } rest
      else
        (mergeLoop v rest).map (fun tail => current :: tail)
    else none

/-- `_merge_adjacent_identical` from `visemes/smooth.py`. -/
def merge_adjacent_identical : List Viseme → Option (List Viseme)
  | [] => some []
  | v :: rest => mergeLoop v rest

/-- The per-element body of `_enforce_min_duration`: keep `v` when its
duration is at least the threshold, otherwise extend the end to
`start + MIN_VISEME_DURATION`, clipped to the next interval's start when
there is a next interval. -/
def enforceStep (v : Viseme) (nextStart : Option ℚ) : Viseme :=
  if MIN_VISEME_DURATION ≤ v.stop - v.start then v
  else
    { v with stop :=
        match nextStart with
        | none => v.start + MIN_VISEME_DURATION
        | some s => min (v.start + MIN_VISEME_DURATION) s }

/-- `_enforce_min_duration` from `visemes/smooth.py`: the next interval's
start is read from the input list itself. -/
def enforce_min_duration : List Viseme → List Viseme
  | [] => []
  | v :: rest =>
    enforceStep v (rest.head?.map (fun w => w.start)) ::
      enforce_min_duration rest

/-- The per-element body of `_stretch_plosives`: non-plosive intervals are
kept; a plosive interval's end is extended by `duration * (factor - 1)`,
clipped to the next interval's start when there is a next interval. -/
def stretchStep (v : Viseme) (nextStart : Option ℚ) : Viseme :=
  if v.name ≠ PLOSIVE_VISEME_NAME then v
  else
    let newEnd := v.stop + (v.stop - v.start) * (PLOSIVE_STRETCH_FACTOR - 1)
    { v with stop :=
        match nextStart with
        | none => newEnd
        | some s => min newEnd s }

/-- `_stretch_plosives` from `visemes/smooth.py`. -/
def stretch_plosives : List Viseme → List Viseme
  | [] => []
  | v :: rest =>
    stretchStep v (rest.head?.map (fun w => w.start)) :: stretch_plosives rest

/-- The stable sort by start time performed by
`sorted(visemes, key=lambda v: v.start)`. -/
def sortVisemes (l : List Viseme) : List Viseme :=
  l.mergeSort (fun a b => decide (a.start ≤ b.start))

/-- The assertion loop of `smooth_visemes`: each element's start is at
least its predecessor's start. -/
def sortedByStart : List Viseme → Bool
  | [] => true
  | [_] => true
  | a :: b :: rest => decide (a.start ≤ b.start) && sortedByStart (b :: rest)

/-- `smooth_visemes` from `visemes/smooth.py`: empty input returns empty;
otherwise the input is sorted by start, the in-code monotonicity assertion
is evaluated on the sorted list, and the four passes run in order. -/
def smooth_visemes (visemes : List Viseme) : Option (List Viseme) :=
  match visemes with
  | [] => some []
  | _ :: _ =>
    if sortedByStart (sortVisemes visemes) then
      (merge_adjacent_identical (sortVisemes visemes)).bind (fun s1 =>
        merge_adjacent_identical (stretch_plosives (enforce_min_duration s1)))
    else none

/-- `FPS = 8` from `render/renderer.py`. -/
def FPS : ℚ := 8

/-- The active-viseme lookup inside `SpriteRenderer._render_frame`: the first
interval `v` in scan order with `v.start <= t < v.end`, else `none`. -/
def activeViseme (visemes : List Viseme) (t : ℚ) : Option String :=
  (visemes.find? (fun v => decide (v.start ≤ t ∧ t < v.stop))).map
    (fun v => v.name)

/-- `SpriteRenderer.render_sequence` from `render/renderer.py`, reduced to
the active category of each frame: `frame_count = ceil(duration * FPS)`,
asserted positive, and frame `i` is sampled at `t = i / FPS`. -/
def render_sequence (visemes : List Viseme) (duration : ℚ) :
    Option (List (Option String)) :=
  if 0 < (⌈duration * FPS⌉ : ℤ) then
    some ((List.range (⌈duration * FPS⌉ : ℤ).toNat).map
      (fun i : ℕ => activeViseme visemes ((i : ℚ) / FPS)))
  else none

/-- `a` precedes `b` with no shared instant: sorted and non-overlapping. -/
def disjointBefore (a b : Viseme) : Prop :=
  a.start ≤ b.start ∧ a.stop ≤ b.start

instance (a b : Viseme) : Decidable (disjointBefore a b) :=
  inferInstanceAs (Decidable (_ ∧ _))

/-- Adjacent-pairs formulation of "sorted ascending by start". -/
abbrev SortedStarts (l : List Viseme) : Prop :=
  l.Chain' (fun a b => a.start ≤ b.start)

/-- The minimum-duration postcondition relating an interval to its
successor: duration at least the threshold, or clipped by the neighbor. -/
def minDurOk (a b : Viseme) : Prop :=
  MIN_VISEME_DURATION ≤ a.stop - a.start ∨ a.stop = b.start

instance (a b : Viseme) : Decidable (minDurOk a b) :=
  inferInstanceAs (Decidable (_ ∨ _))

/-- The merge condition of `_merge_adjacent_identical` fails between `a`
and its successor `b`. -/
def mergeBreak (a b : Viseme) : Prop :=
  ¬(b.name = a.name ∧ |b.start - a.stop| < MERGE_TOLERANCE)

instance (a b : Viseme) : Decidable (mergeBreak a b) :=
  inferInstanceAs (Decidable (¬(_ ∧ _)))

set_option linter.unusedVariables false in
/-- A kernel-computable decision procedure for adjacent-pair chains over
visemes, used so that concrete instances can be settled by `decide`. -/
def decChainVis (R : Viseme → Viseme → Prop) [inst : DecidableRel R] :
    (l : List Viseme) → Decidable (l.Chain' R)
  | [] => isTrue List.chain'_nil
  | [a] => isTrue (List.chain'_singleton a)
  | a :: b :: rest =>
    haveI : Decidable (List.Chain' R (b :: rest)) := decChainVis R (b :: rest)
    decidable_of_decidable_of_iff (Iff.symm List.chain'_cons)

instance (priority := 2000) (R : Viseme → Viseme → Prop) [DecidableRel R]
    (l : List Viseme) : Decidable (l.Chain' R) :=
  decChainVis R l

/-- End time of the span obtained by merging `t` into an interval whose
current end is `e`: the running maximum of end times, as computed by the
merge loop. -/
def spanStop (e : ℚ) (t : List Viseme) : ℚ :=
  t.foldl (fun m v => max m v.stop) e

/-- The span of a merge group with first element `h` and remaining
elements `t`. -/
def spanOf (h : Viseme) (t : List Viseme) : Viseme :=
  { name := h.name, start := h.start, stop := spanStop h.stop t }

/-- `spanOf` on a pair. -/
def spanP (p : Viseme × List Viseme) : Viseme := spanOf p.1 p.2

/-- Flatten a list of merge groups back into the underlying interval list. -/
def gflat (gs : List (Viseme × List Viseme)) : List Viseme :=
  (gs.map (fun p => p.1 :: p.2)).flatten

/-!  Basic facts about the per-element bodies of the two length-preserving
passes. -/

theorem enforceStep_name (v : Viseme) (ns : Option ℚ) :
    (enforceStep v ns).name = v.name := by
  unfold enforceStep
  split <;> rfl

theorem enforceStep_start (v : Viseme) (ns : Option ℚ) :
    (enforceStep v ns).start = v.start := by
  unfold enforceStep
  split <;> rfl

theorem stretchStep_name (v : Viseme) (ns : Option ℚ) :
    (stretchStep v ns).name = v.name := by
  unfold stretchStep
  split <;> rfl

theorem stretchStep_start (v : Viseme) (ns : Option ℚ) :
    (stretchStep v ns).start = v.start := by
  unfold stretchStep
  split <;> rfl

theorem le_enforceStep_stop (v : Viseme) (ns : Option ℚ)
    (h : ∀ s, ns = some s → v.stop ≤ s) :
    v.stop ≤ (enforceStep v ns).stop := by
  unfold enforceStep
  split
  · exact le_rfl
  · rename_i hlt
    have hv : v.stop < v.start + MIN_VISEME_DURATION := by
      have := lt_of_not_le hlt
      linarith
    cases ns with
    | none => exact le_of_lt hv
    | some s => exact le_min (le_of_lt hv) (h s rfl)

theorem enforceStep_stop_le_next (v : Viseme) (s : ℚ) (h : v.stop ≤ s) :
    (enforceStep v (some s)).stop ≤ s := by
  unfold enforceStep
  split
  · exact h
  · exact min_le_right _ _

theorem enforceStep_start_le_stop (v : Viseme) (ns : Option ℚ)
    (hv : v.start ≤ v.stop) (h : ∀ s, ns = some s → v.start ≤ s) :
    (enforceStep v ns).start ≤ (enforceStep v ns).stop := by
  unfold enforceStep
  split
  · exact hv
  · have hpos : (0 : ℚ) < MIN_VISEME_DURATION := by norm_num [MIN_VISEME_DURATION]
    cases ns with
    | none => simpa using by linarith
    | some s => exact le_min (by linarith) (h s rfl)

theorem le_stretchStep_stop (v : Viseme) (ns : Option ℚ)
    (hv : v.start ≤ v.stop) (h : ∀ s, ns = some s → v.stop ≤ s) :
    v.stop ≤ (stretchStep v ns).stop := by
  unfold stretchStep
  split
  · exact le_rfl
  · have hextra : 0 ≤ (v.stop - v.start) * (PLOSIVE_STRETCH_FACTOR - 1) := by
      apply mul_nonneg (by linarith)
      norm_num [PLOSIVE_STRETCH_FACTOR]
    cases ns with
    | none => simpa using by linarith
    | some s => exact le_min (by linarith) (h s rfl)

theorem stretchStep_stop_le_next (v : Viseme) (s : ℚ) (h : v.stop ≤ s) :
    (stretchStep v (some s)).stop ≤ s := by
  unfold stretchStep
  split
  · exact h
  · exact min_le_right _ _

theorem stretchStep_start_le_stop (v : Viseme) (ns : Option ℚ)
    (hv : v.start ≤ v.stop) (h : ∀ s, ns = some s → v.start ≤ s) :
    (stretchStep v ns).start ≤ (stretchStep v ns).stop := by
  unfold stretchStep
  split
  · exact hv
  · have hextra : 0 ≤ (v.stop - v.start) * (PLOSIVE_STRETCH_FACTOR - 1) := by
      apply mul_nonneg (by linarith)
      norm_num [PLOSIVE_STRETCH_FACTOR]
    cases ns with
    | none => simpa using by linarith
    | some s => exact le_min (by linarith) (h s rfl)

/-!  Pointwise characterization of the two length-preserving passes: each
output element is the step function applied to the corresponding input
element and the start of the NEXT element of the pass's own input list. -/

theorem enforce_length (l : List Viseme) :
    (enforce_min_duration l).length = l.length := by
  induction l with
  | nil => rfl
  | cons v rest ih => simp [enforce_min_duration, ih]

theorem stretch_length (l : List Viseme) :
    (stretch_plosives l).length = l.length := by
  induction l with
  | nil => rfl
  | cons v rest ih => simp [stretch_plosives, ih]

theorem enforce_getElem (l : List Viseme) (i : ℕ) :
    (enforce_min_duration l)[i]? =
      (l[i]?).map (fun v =>
        enforceStep v ((l[i + 1]?).map (fun w => w.start))) := by
  induction l generalizing i with
  | nil => simp [enforce_min_duration]
  | cons v rest ih =>
    cases i with
    | zero =>
      simp [enforce_min_duration, List.head?_eq_getElem?]
    | succ n =>
      simpa [enforce_min_duration] using ih n

theorem stretch_getElem (l : List Viseme) (i : ℕ) :
    (stretch_plosives l)[i]? =
      (l[i]?).map (fun v =>
        stretchStep v ((l[i + 1]?).map (fun w => w.start))) := by
  induction l generalizing i with
  | nil => simp [stretch_plosives]
  | cons v rest ih =>
    cases i with
    | zero =>
      simp [stretch_plosives, List.head?_eq_getElem?]
    | succ n =>
      simpa [stretch_plosives] using ih n

/-!  Branch equations for the step functions. -/

theorem enforceStep_of_ge (v : Viseme) (ns : Option ℚ)
    (h : MIN_VISEME_DURATION ≤ v.stop - v.start) : enforceStep v ns = v := by
  unfold enforceStep
  rw [if_pos h]

theorem enforceStep_of_lt (v : Viseme) (ns : Option ℚ)
    (h : ¬ MIN_VISEME_DURATION ≤ v.stop - v.start) :
    enforceStep v ns =
      { v with stop :=
          match ns with
          | none => v.start + MIN_VISEME_DURATION
          | some s => min (v.start + MIN_VISEME_DURATION) s } := by
  unfold enforceStep
  rw [if_neg h]

theorem stretchStep_of_other (v : Viseme) (ns : Option ℚ)
    (h : v.name ≠ PLOSIVE_VISEME_NAME) : stretchStep v ns = v := by
  unfold stretchStep
  rw [if_pos h]

theorem stretchStep_of_plosive (v : Viseme) (ns : Option ℚ)
    (h : v.name = PLOSIVE_VISEME_NAME) :
    stretchStep v ns =
      { v with stop :=
          match ns with
          | none => v.stop + (v.stop - v.start) * (PLOSIVE_STRETCH_FACTOR - 1)
          | some s =>
            min (v.stop + (v.stop - v.start) * (PLOSIVE_STRETCH_FACTOR - 1))
              s } := by
  unfold stretchStep
  rw [if_neg (by simpa using h)]

/-!  Adjacent-pair chains through the length-preserving passes. -/

theorem chain'_rel_getElem {R : Viseme → Viseme → Prop} {l : List Viseme}
    (h : l.Chain' R) :
    ∀ i v w, l[i]? = some v → l[i + 1]? = some w → R v w := by
  induction l with
  | nil =>
    intro i v w hv _
    simp at hv
  | cons a rest ih =>
    intro i v w hv hw
    cases i with
    | zero =>
      simp at hv
      cases rest with
      | nil => simp at hw
      | cons b rest2 =>
        simp at hw
        rw [← hv, ← hw]
        exact (List.chain'_cons.mp h).1
    | succ n =>
      exact ih (List.chain'_cons'.mp h).2 n v w (by simpa using hv)
        (by simpa using hw)

theorem enforce_chain_disjoint {l : List Viseme}
    (h : l.Chain' disjointBefore) :
    (enforce_min_duration l).Chain' disjointBefore := by
  induction l with
  | nil => simp [enforce_min_duration]
  | cons v rest ih =>
    obtain ⟨hhead, htail⟩ := List.chain'_cons'.mp h
    rw [enforce_min_duration]
    refine List.chain'_cons'.mpr ⟨?_, ih htail⟩
    intro b hb
    cases rest with
    | nil => simp [enforce_min_duration] at hb
    | cons w rest2 =>
      rw [enforce_min_duration] at hb
      simp only [List.head?_cons, Option.map_some] at hb ⊢
      rw [Option.mem_some_iff] at hb
      subst hb
      have hvw : disjointBefore v w := hhead w rfl
      exact ⟨by rw [enforceStep_start, enforceStep_start]; exact hvw.1,
        by rw [enforceStep_start]; exact enforceStep_stop_le_next v w.start hvw.2⟩

theorem stretch_chain_disjoint {l : List Viseme}
    (h : l.Chain' disjointBefore) :
    (stretch_plosives l).Chain' disjointBefore := by
  induction l with
  | nil => simp [stretch_plosives]
  | cons v rest ih =>
    obtain ⟨hhead, htail⟩ := List.chain'_cons'.mp h
    rw [stretch_plosives]
    refine List.chain'_cons'.mpr ⟨?_, ih htail⟩
    intro b hb
    cases rest with
    | nil => simp [stretch_plosives] at hb
    | cons w rest2 =>
      rw [stretch_plosives] at hb
      simp only [List.head?_cons, Option.map_some] at hb ⊢
      rw [Option.mem_some_iff] at hb
      subst hb
      have hvw : disjointBefore v w := hhead w rfl
      exact ⟨by rw [stretchStep_start, stretchStep_start]; exact hvw.1,
        by rw [stretchStep_start]; exact stretchStep_stop_le_next v w.start hvw.2⟩

theorem enforce_sorted {l : List Viseme} (h : SortedStarts l) :
    SortedStarts (enforce_min_duration l) := by
  induction l with
  | nil => simp [enforce_min_duration]
  | cons v rest ih =>
    obtain ⟨hhead, htail⟩ := List.chain'_cons'.mp h
    rw [enforce_min_duration]
    refine List.chain'_cons'.mpr ⟨?_, ih htail⟩
    intro b hb
    cases rest with
    | nil => simp [enforce_min_duration] at hb
    | cons w rest2 =>
      rw [enforce_min_duration] at hb
      simp only [List.head?_cons, Option.map_some] at hb ⊢
      rw [Option.mem_some_iff] at hb
      subst hb
      rw [enforceStep_start, enforceStep_start]
      exact hhead w rfl

theorem stretch_sorted {l : List Viseme} (h : SortedStarts l) :
    SortedStarts (stretch_plosives l) := by
  induction l with
  | nil => simp [stretch_plosives]
  | cons v rest ih =>
    obtain ⟨hhead, htail⟩ := List.chain'_cons'.mp h
    rw [stretch_plosives]
    refine List.chain'_cons'.mpr ⟨?_, ih htail⟩
    intro b hb
    cases rest with
    | nil => simp [stretch_plosives] at hb
    | cons w rest2 =>
      rw [stretch_plosives] at hb
      simp only [List.head?_cons, Option.map_some] at hb ⊢
      rw [Option.mem_some_iff] at hb
      subst hb
      rw [stretchStep_start, stretchStep_start]
      exact hhead w rfl

theorem enforce_durs {l : List Viseme} (hs : SortedStarts l)
    (hd : ∀ v ∈ l, v.start ≤ v.stop) :
    ∀ v ∈ enforce_min_duration l, v.start ≤ v.stop := by
  induction l with
  | nil => simp [enforce_min_duration]
  | cons v rest ih =>
    obtain ⟨hhead, htail⟩ := List.chain'_cons'.mp hs
    rw [enforce_min_duration]
    intro u hu
    rcases List.mem_cons.mp hu with hu | hu
    · rw [hu]
      refine enforceStep_start_le_stop v _ (hd v (by simp)) ?_
      intro s hs2
      cases rest with
      | nil => simp at hs2
      | cons w rest2 =>
        simp at hs2
        rw [← hs2]
        exact hhead w rfl
    · exact ih htail (fun x hx => hd x (List.mem_cons_of_mem v hx)) u hu

theorem stretch_durs {l : List Viseme} (hs : SortedStarts l)
    (hd : ∀ v ∈ l, v.start ≤ v.stop) :
    ∀ v ∈ stretch_plosives l, v.start ≤ v.stop := by
  induction l with
  | nil => simp [stretch_plosives]
  | cons v rest ih =>
    obtain ⟨hhead, htail⟩ := List.chain'_cons'.mp hs
    rw [stretch_plosives]
    intro u hu
    rcases List.mem_cons.mp hu with hu | hu
    · rw [hu]
      refine stretchStep_start_le_stop v _ (hd v (by simp)) ?_
      intro s hs2
      cases rest with
      | nil => simp at hs2
      | cons w rest2 =>
        simp at hs2
        rw [← hs2]
        exact hhead w rfl
    · exact ih htail (fun x hx => hd x (List.mem_cons_of_mem v hx)) u hu

/-!  The minimum-duration pass establishes `minDurOk`, and the stretch pass
preserves it. -/

theorem enforce_minDur {l : List Viseme} (h : l.Chain' disjointBefore) :
    (enforce_min_duration l).Chain' minDurOk := by
  induction l with
  | nil => simp [enforce_min_duration]
  | cons v rest ih =>
    obtain ⟨hhead, htail⟩ := List.chain'_cons'.mp h
    rw [enforce_min_duration]
    refine List.chain'_cons'.mpr ⟨?_, ih htail⟩
    intro b hb
    cases rest with
    | nil => simp [enforce_min_duration] at hb
    | cons w rest2 =>
      rw [enforce_min_duration] at hb
      simp only [List.head?_cons, Option.map_some] at hb ⊢
      rw [Option.mem_some_iff] at hb
      subst hb
      unfold minDurOk
      rw [enforceStep_start]
      by_cases hc : MIN_VISEME_DURATION ≤ v.stop - v.start
      · left
        rw [enforceStep_of_ge v _ hc]
        exact hc
      · rw [enforceStep_of_lt v _ hc]
        simp only [Option.map_some']
        rcases le_total (v.start + MIN_VISEME_DURATION) w.start with hmw | hmw
        · left
          rw [min_eq_left hmw]
          ring_nf
          exact le_rfl
        · right
          rw [min_eq_right hmw, enforceStep_start]

theorem stretch_minDur {l : List Viseme} (hok : l.Chain' disjointBefore)
    (hd : ∀ v ∈ l, v.start ≤ v.stop) (hQ : l.Chain' minDurOk) :
    (stretch_plosives l).Chain' minDurOk := by
  induction l with
  | nil => simp [stretch_plosives]
  | cons v rest ih =>
    obtain ⟨hok1, hok2⟩ := List.chain'_cons'.mp hok
    obtain ⟨hQ1, hQ2⟩ := List.chain'_cons'.mp hQ
    rw [stretch_plosives]
    refine List.chain'_cons'.mpr
      ⟨?_, ih hok2 (fun x hx => hd x (List.mem_cons_of_mem v hx)) hQ2⟩
    intro b hb
    cases rest with
    | nil => simp [stretch_plosives] at hb
    | cons w rest2 =>
      rw [stretch_plosives] at hb
      simp only [List.head?_cons, Option.map_some] at hb ⊢
      rw [Option.mem_some_iff] at hb
      subst hb
      unfold minDurOk
      rw [stretchStep_start, stretchStep_start]
      have hQvw : minDurOk v w := hQ1 w rfl
      by_cases hn : v.name = PLOSIVE_VISEME_NAME
      · have hextra : 0 ≤ (v.stop - v.start) * (PLOSIVE_STRETCH_FACTOR - 1) := by
          apply mul_nonneg
          · have := hd v (by simp)
            linarith
          · norm_num [PLOSIVE_STRETCH_FACTOR]
        rw [stretchStep_of_plosive v _ hn]
        simp only [Option.map_some']
        rcases hQvw with hq | hq
        · left
          have h1 : v.stop ≤
              v.stop + (v.stop - v.start) * (PLOSIVE_STRETCH_FACTOR - 1) := by
            linarith
          have h2 : v.stop ≤ w.start := hok1 w rfl |>.2
          have h3 := le_min h1 h2
          have h4 : MIN_VISEME_DURATION ≤ v.stop - v.start := hq
          linarith
        · right
          have h4 : v.stop = w.start := hq
          rw [h4] at hextra ⊢
          exact min_eq_right (by linarith)
      · rw [stretchStep_of_other v _ hn]
        rcases hQvw with hq | hq
        · left
          exact hq
        · right
          exact hq

/-!  Facts about merge spans. -/

theorem spanStop_append (e : ℚ) (t : List Viseme) (v : Viseme) :
    spanStop e (t ++ [v]) = max (spanStop e t) v.stop := by
  simp [spanStop, List.foldl_append]

theorem le_spanStop (e : ℚ) (t : List Viseme) : e ≤ spanStop e t := by
  induction t generalizing e with
  | nil => simp [spanStop]
  | cons v t ih =>
    have heq : spanStop e (v :: t) = spanStop (max e v.stop) t := rfl
    rw [heq]
    exact le_trans (le_max_left _ _) (ih (max e v.stop))

theorem stop_le_spanStop (t : List Viseme) :
    ∀ (e : ℚ) (v : Viseme), v ∈ t → v.stop ≤ spanStop e t := by
  induction t with
  | nil =>
    intro e v hv
    simp at hv
  | cons u t ih =>
    intro e v hv
    have heq : spanStop e (u :: t) = spanStop (max e u.stop) t := rfl
    rw [heq]
    rcases List.mem_cons.mp hv with h | h
    · rw [h]
      exact le_trans (le_max_right _ _) (le_spanStop _ _)
    · exact ih _ v h

theorem spanStop_le (t : List Viseme) :
    ∀ (e B : ℚ), e ≤ B → (∀ v ∈ t, v.stop ≤ B) → spanStop e t ≤ B := by
  induction t with
  | nil =>
    intro e B he _
    simpa [spanStop] using he
  | cons u t ih =>
    intro e B he ht
    have heq : spanStop e (u :: t) = spanStop (max e u.stop) t := rfl
    rw [heq]
    exact ih _ _ (max_le he (ht u (by simp))) (fun v hv => ht v (by simp [hv]))

theorem spanStop_mem (t : List Viseme) :
    ∀ e : ℚ, spanStop e t = e ∨ ∃ v ∈ t, spanStop e t = v.stop := by
  induction t with
  | nil =>
    intro e
    left
    rfl
  | cons u t ih =>
    intro e
    have heq : spanStop e (u :: t) = spanStop (max e u.stop) t := rfl
    rw [heq]
    rcases ih (max e u.stop) with h | ⟨v, hv, h⟩
    · rcases le_total e u.stop with hm | hm
      · right
        exact ⟨u, by simp, by rw [h]; exact max_eq_right hm⟩
      · left
        rw [h]
        exact max_eq_left hm
    · right
      exact ⟨v, by simp [hv], h⟩

theorem spanP_name (p : Viseme × List Viseme) : (spanP p).name = p.1.name := rfl

theorem spanP_start (p : Viseme × List Viseme) :
    (spanP p).start = p.1.start := rfl

theorem spanP_stop (p : Viseme × List Viseme) :
    (spanP p).stop = spanStop p.1.stop p.2 := rfl

theorem gflat_nil : gflat [] = [] := rfl

theorem gflat_cons (p : Viseme × List Viseme) (gs : List (Viseme × List Viseme)) :
    gflat (p :: gs) = (p.1 :: p.2) ++ gflat gs := by
  simp [gflat]

theorem head_mem_gflat {gs : List (Viseme × List Viseme)}
    {p : Viseme × List Viseme} (hp : p ∈ gs) : p.1 ∈ gflat gs := by
  induction gs with
  | nil => simp at hp
  | cons q gs ih =>
    rw [gflat_cons]
    rcases List.mem_cons.mp hp with h | h
    · rw [h]
      simp
    · simp [ih h]

/-- The merge loop, started on the span of an already-absorbed group
`(g, t)`, partitions the rest of the list into further groups: it extends
the current group by some prefix `t2` and splits the remainder into groups
`gs`, emitting exactly the group spans.  The output spans break the merge
condition pairwise and stay sorted. -/
theorem mergeLoop_spec :
    ∀ (l : List Viseme) (g : Viseme) (t : List Viseme),
      SortedStarts (spanOf g t :: l) →
      ∃ (t2 : List Viseme) (gs : List (Viseme × List Viseme)),
        mergeLoop (spanOf g t) l = some (spanP (g, t ++ t2) :: gs.map spanP) ∧
        l = t2 ++ gflat gs ∧
        List.Chain' mergeBreak (spanP (g, t ++ t2) :: gs.map spanP) ∧
        SortedStarts (spanP (g, t ++ t2) :: gs.map spanP) := by
  intro l
  induction l with
  | nil =>
    intro g t _
    refine ⟨[], [], ?_, rfl, ?_, ?_⟩
    · simp [mergeLoop, spanP]
    · simp
    · simp
  | cons v rest ih =>
    intro g t hs
    obtain ⟨hs1, hs2⟩ := List.chain'_cons'.mp hs
    have hgv : (spanOf g t).start ≤ v.start := hs1 v rfl
    rw [mergeLoop, if_pos hgv]
    by_cases hc : v.name = (spanOf g t).name ∧
        |v.start - (spanOf g t).stop| < MERGE_TOLERANCE
    · rw [if_pos hc]
      have hmerge : Viseme.mk (spanOf g t).name (spanOf g t).start
          (max (spanOf g t).stop v.stop) = spanOf g (t ++ [v]) := by
        simp [spanOf, spanStop_append]
      rw [hmerge]
      have hsort2 : SortedStarts (spanOf g (t ++ [v]) :: rest) := by
        refine List.chain'_cons'.mpr ⟨?_, (List.chain'_cons'.mp hs2).2⟩
        intro b hb
        exact le_trans hgv ((List.chain'_cons'.mp hs2).1 b hb)
      obtain ⟨t2, gs, heq, hfl, hbrk, hsort⟩ := ih g (t ++ [v]) hsort2
      have hl : t ++ (v :: t2) = (t ++ [v]) ++ t2 := by simp
      refine ⟨v :: t2, gs, ?_, ?_, ?_, ?_⟩
      · rw [heq, hl]
      · rw [hfl]
        simp
      · rw [hl]
        exact hbrk
      · rw [hl]
        exact hsort
    · rw [if_neg hc]
      have hv_eta : spanOf v [] = v := rfl
      obtain ⟨t2, gs, heq, hfl, hbrk, hsort⟩ := ih v []
        (by rw [hv_eta]; exact hs2)
      rw [hv_eta] at heq
      simp only [List.nil_append] at heq hbrk hsort
      refine ⟨[], (v, t2) :: gs, ?_, ?_, ?_, ?_⟩
      · rw [heq]
        simp [spanP]
      · rw [gflat_cons]
        simp [hfl]
      · rw [List.map_cons]
        refine List.chain'_cons.mpr ⟨?_, hbrk⟩
        intro hcontra
        apply hc
        constructor
        · exact hcontra.1
        · simpa using hcontra.2
      · rw [List.map_cons]
        exact List.chain'_cons.mpr ⟨by simpa using hgv, hsort⟩

/-- `_merge_adjacent_identical` on a sorted list: it succeeds and its
output is the list of group spans of a partition of the input. -/
theorem merge_spec {l : List Viseme} (hs : SortedStarts l) :
    ∃ gs : List (Viseme × List Viseme),
      merge_adjacent_identical l = some (gs.map spanP) ∧
      l = gflat gs ∧
      List.Chain' mergeBreak (gs.map spanP) ∧
      SortedStarts (gs.map spanP) := by
  cases l with
  | nil => exact ⟨[], rfl, rfl, by simp, by simp⟩
  | cons v rest =>
    have hv : spanOf v [] = v := rfl
    obtain ⟨t2, gs, heq, hfl, hbrk, hsort⟩ := mergeLoop_spec rest v []
      (by rw [hv]; exact hs)
    rw [hv] at heq
    simp only [List.nil_append] at heq hbrk hsort
    refine ⟨(v, t2) :: gs, ?_, ?_, ?_, ?_⟩
    · rw [merge_adjacent_identical, heq]
      simp
    · rw [gflat_cons]
      simp [hfl]
    · simpa using hbrk
    · simpa using hsort

theorem merge_chain_disjoint (gs : List (Viseme × List Viseme))
    (hp : List.Pairwise disjointBefore (gflat gs)) :
    List.Chain' disjointBefore (gs.map spanP) := by
  induction gs with
  | nil => simp
  | cons p gs ih =>
    rw [gflat_cons] at hp
    obtain ⟨hp1, hp2, hcross⟩ := List.pairwise_append.mp hp
    rw [List.map_cons]
    refine List.chain'_cons'.mpr ⟨?_, ih hp2⟩
    intro b hb
    cases gs with
    | nil => simp at hb
    | cons q gs2 =>
      rw [List.map_cons] at hb
      simp only [List.head?_cons] at hb
      rw [Option.mem_some_iff] at hb
      subst hb
      have hq1 : q.1 ∈ gflat (q :: gs2) := by
        rw [gflat_cons]
        simp
      constructor
      · exact (hcross p.1 (by simp) q.1 hq1).1
      · rw [spanP_stop, spanP_start]
        refine spanStop_le p.2 p.1.stop q.1.start
          (hcross p.1 (by simp) q.1 hq1).2 ?_
        intro u hu
        exact (hcross u (by simp [hu]) q.1 hq1).2

theorem merge_durs (gs : List (Viseme × List Viseme))
    (hd : ∀ v ∈ gflat gs, v.start ≤ v.stop) :
    ∀ v ∈ gs.map spanP, v.start ≤ v.stop := by
  intro v hv
  obtain ⟨p, hp, hpv⟩ := List.mem_map.mp hv
  rw [← hpv, spanP_start, spanP_stop]
  exact le_trans (hd p.1 (head_mem_gflat hp)) (le_spanStop _ _)

/-- Under sortedness, non-overlap and non-negative durations, the running
maximum of end times inside a merge group is attained by the group's last
element. -/
theorem spanStop_eq_getLast {g : Viseme} {t : List Viseme}
    (hp : List.Pairwise disjointBefore (g :: t))
    (hd : ∀ v ∈ g :: t, v.start ≤ v.stop) :
    spanStop g.stop t = ((g :: t).getLast (List.cons_ne_nil g t)).stop := by
  have hbmem : (g :: t).getLast (List.cons_ne_nil g t) ∈ g :: t :=
    List.getLast_mem _
  have hsplit : (g :: t).dropLast ++ [(g :: t).getLast (List.cons_ne_nil g t)]
      = g :: t := List.dropLast_append_getLast _
  have hub : ∀ a ∈ g :: t, a.stop ≤
      ((g :: t).getLast (List.cons_ne_nil g t)).stop := by
    intro a ha
    have hp2 : List.Pairwise disjointBefore
        ((g :: t).dropLast ++ [(g :: t).getLast (List.cons_ne_nil g t)]) := by
      rw [hsplit]
      exact hp
    obtain ⟨_, _, hcross⟩ := List.pairwise_append.mp hp2
    have ha2 : a ∈ (g :: t).dropLast ++
        [(g :: t).getLast (List.cons_ne_nil g t)] := by
      rw [hsplit]
      exact ha
    rcases List.mem_append.mp ha2 with h | h
    · exact le_trans (hcross a h _ (by simp)).2 (hd _ hbmem)
    · rw [List.mem_singleton.mp h]
  apply le_antisymm
  · exact spanStop_le t g.stop _ (hub g (by simp)) (fun v hv => hub v (by simp [hv]))
  · rcases List.mem_cons.mp hbmem with h | h
    · rw [h]
      exact le_spanStop _ _
    · exact stop_le_spanStop t g.stop _ h

theorem merge_minDur (gs : List (Viseme × List Viseme))
    (hp : List.Pairwise disjointBefore (gflat gs))
    (hd : ∀ v ∈ gflat gs, v.start ≤ v.stop)
    (hQ : List.Chain' minDurOk (gflat gs)) :
    List.Chain' minDurOk (gs.map spanP) := by
  induction gs with
  | nil => simp
  | cons p gs ih =>
    rw [gflat_cons] at hp hd hQ
    obtain ⟨hp1, hp2, hcross⟩ := List.pairwise_append.mp hp
    obtain ⟨hQ1, hQ2, hQb⟩ := List.chain'_append.mp hQ
    rw [List.map_cons]
    refine List.chain'_cons'.mpr
      ⟨?_, ih hp2 (fun v hv => hd v (by simp [hv])) hQ2⟩
    intro b hb
    cases gs with
    | nil => simp at hb
    | cons q gs2 =>
      rw [List.map_cons] at hb
      simp only [List.head?_cons] at hb
      rw [Option.mem_some_iff] at hb
      subst hb
      have hdp : ∀ v ∈ p.1 :: p.2, v.start ≤ v.stop := by
        intro v hv
        refine hd v ?_
        simp only [List.cons_append, List.mem_cons, List.mem_append] at hv ⊢
        tauto
      have hspan : (spanP p).stop =
          ((p.1 :: p.2).getLast (List.cons_ne_nil p.1 p.2)).stop := by
        rw [spanP_stop]
        exact spanStop_eq_getLast hp1 hdp
      have hlast : (p.1 :: p.2).getLast? =
          some ((p.1 :: p.2).getLast (List.cons_ne_nil p.1 p.2)) :=
        List.getLast?_eq_getLast _ _
      have hhead : (gflat (q :: gs2)).head? = some q.1 := by
        rw [gflat_cons]
        simp
      have hQbL : minDurOk ((p.1 :: p.2).getLast (List.cons_ne_nil p.1 p.2))
          q.1 := hQb _ (by rw [hlast]; rfl) q.1 (by rw [hhead]; rfl)
      have hgb : p.1.start ≤
          ((p.1 :: p.2).getLast (List.cons_ne_nil p.1 p.2)).start := by
        have hbmem := List.getLast_mem (List.cons_ne_nil p.1 p.2)
        rcases List.mem_cons.mp hbmem with h | h
        · rw [h]
        · exact ((List.pairwise_cons.mp hp1).1 _ h).1
      rcases hQbL with hq | hq
      · left
        rw [hspan, spanP_start]
        linarith
      · right
        rw [hspan, hq, spanP_start]

/-- A sorted list whose adjacent pairs all fail the merge condition is a
fixed point of the merge loop. -/
theorem mergeLoop_fixed :
    ∀ (l : List Viseme) (c : Viseme),
      SortedStarts (c :: l) → List.Chain' mergeBreak (c :: l) →
      mergeLoop c l = some (c :: l) := by
  intro l
  induction l with
  | nil =>
    intro c _ _
    rfl
  | cons v rest ih =>
    intro c hs hbrk
    obtain ⟨hs1, hs2⟩ := List.chain'_cons.mp hs
    obtain ⟨hb1, hb2⟩ := List.chain'_cons.mp hbrk
    rw [mergeLoop, if_pos hs1, if_neg hb1, ih v hs2 hb2]
    rfl

/-!  The sort and validation prologue of `smooth_visemes`. -/

theorem sortedByStart_iff : ∀ l : List Viseme,
    sortedByStart l = true ↔ SortedStarts l
  | [] => by simp [sortedByStart]
  | [a] => by simp [sortedByStart]
  | a :: b :: rest => by
    rw [sortedByStart, Bool.and_eq_true, decide_eq_true_eq,
      sortedByStart_iff (b :: rest)]
    exact Iff.symm List.chain'_cons

theorem sortVisemes_eq_self {l : List Viseme} (h : SortedStarts l) :
    sortVisemes l = l := by
  apply List.mergeSort_of_sorted
  have htrans : IsTrans Viseme (fun a b => a.start ≤ b.start) :=
    ⟨fun _ _ _ hab hbc => le_trans hab hbc⟩
  have hpw : List.Pairwise (fun a b : Viseme => a.start ≤ b.start) l :=
    (@List.chain'_iff_pairwise _ _ htrans l).mp h
  exact hpw.imp (fun hab => by simpa using hab)

theorem sortVisemes_sorted (l : List Viseme) : SortedStarts (sortVisemes l) := by
  have h := @List.sorted_mergeSort Viseme
    (fun a b : Viseme => decide (a.start ≤ b.start))
    (fun a b c hab hbc => by
      simp only [decide_eq_true_eq] at *
      exact le_trans hab hbc)
    (fun a b => by
      simp only [Bool.or_eq_true, decide_eq_true_eq]
      exact le_total a.start b.start)
    l
  have hpw : List.Pairwise (fun a b : Viseme => a.start ≤ b.start)
      (sortVisemes l) := h.imp (fun hab => by simpa using hab)
  exact hpw.chain'

theorem smooth_eq_of_sorted {l : List Viseme} (h : SortedStarts l) :
    smooth_visemes l = (merge_adjacent_identical l).bind (fun s1 =>
      merge_adjacent_identical (stretch_plosives (enforce_min_duration s1)))
    := by
  cases l with
  | nil => rfl
  | cons v rest =>
    rw [smooth_visemes]
    rw [sortVisemes_eq_self h, if_pos ((sortedByStart_iff _).mpr h)]

theorem disjoint_trans :
    ∀ {a b c : Viseme}, disjointBefore a b → disjointBefore b c →
      disjointBefore a c :=
  fun hab hbc => ⟨le_trans hab.1 hbc.1, le_trans hab.2 hbc.1⟩

theorem chain'_disjoint_pairwise {l : List Viseme}
    (h : List.Chain' disjointBefore l) : List.Pairwise disjointBefore l := by
  have htrans : IsTrans Viseme disjointBefore :=
    ⟨fun _ _ _ hab hbc => disjoint_trans hab hbc⟩
  exact (@List.chain'_iff_pairwise _ _ htrans l).mp h

theorem chain'_disjoint_sorted {l : List Viseme}
    (h : List.Chain' disjointBefore l) : SortedStarts l :=
  h.imp (fun _ _ hab => hab.1)

/-!  Index-based characterization of `List.find?`: the first match wins. -/

theorem find?_first_iff (p : Viseme → Bool) :
    ∀ (l : List Viseme) (x : Viseme),
      l.find? p = some x ↔
        ∃ j : ℕ, l[j]? = some x ∧ p x = true ∧
          ∀ (k : ℕ) (u : Viseme), k < j → l[k]? = some u → p u = false := by
  intro l
  induction l with
  | nil =>
    intro x
    simp
  | cons a rest ih =>
    intro x
    by_cases hpa : p a = true
    · rw [List.find?_cons_of_pos _ hpa]
      constructor
      · intro h
        rw [Option.some_inj] at h
        refine ⟨0, by simp [h], by rw [← h]; exact hpa, ?_⟩
        intro k u hk _
        exact absurd hk (Nat.not_lt_zero k)
      · rintro ⟨j, hj, hx, hmin⟩
        cases j with
        | zero =>
          simp at hj
          rw [hj]
        | succ n =>
          have hfalse := hmin 0 a (Nat.succ_pos n) (by simp)
          rw [hpa] at hfalse
          exact absurd hfalse (by simp)
    · have hpa2 : p a = false := by
        simpa using hpa
      rw [List.find?_cons_of_neg _ hpa]
      rw [ih x]
      constructor
      · rintro ⟨j, hj, hx, hmin⟩
        refine ⟨j + 1, by simpa using hj, hx, ?_⟩
        intro k u hk hu
        cases k with
        | zero =>
          simp at hu
          rw [← hu]
          exact hpa2
        | succ m =>
          exact hmin m u (Nat.lt_of_succ_lt_succ hk) (by simpa using hu)
      · rintro ⟨j, hj, hx, hmin⟩
        cases j with
        | zero =>
          simp at hj
          rw [hj] at hpa2
          rw [hpa2] at hx
          exact absurd hx (by simp)
        | succ n =>
          refine ⟨n, by simpa using hj, hx, ?_⟩
          intro k u hk hu
          exact hmin (k + 1) u (Nat.succ_lt_succ hk) (by simpa using hu)

/-!  The phoneme-to-viseme mapping: explicit form, and totality of the
category lookup. -/

theorem phonemes_to_visemes_eq {ps : List Phoneme}
    (h : ∀ p ∈ ps, p.start ≤ p.stop) :
    phonemes_to_visemes ps = some (ps.map (fun p =>
      { name := (PHONEME_TO_VISEME.lookup (normalize_symbol p.symbol)).getD
          "REST",
        start := p.start, stop := p.stop })) := by
  induction ps with
  | nil => rfl
  | cons p rest ih =>
    rw [phonemes_to_visemes, if_pos (h p (by simp)),
      ih (fun q hq => h q (by simp [hq]))]
    rfl

theorem lookup_mem_values (l : List (String × String)) (s v : String)
    (h : List.lookup s l = some v) : v ∈ l.map Prod.snd := by
  obtain ⟨l1, l2, hl, _⟩ := List.lookup_eq_some_iff.mp h
  rw [hl]
  simp

theorem lookup_getD_mem (s : String) :
    (PHONEME_TO_VISEME.lookup s).getD "REST" ∈ VISEME_CATEGORIES := by
  cases hl : PHONEME_TO_VISEME.lookup s with
  | none =>
    rw [Option.getD_none]
    decide
  | some v =>
    rw [Option.getD_some]
    have hv := lookup_mem_values PHONEME_TO_VISEME s v hl
    have hall : ∀ x ∈ PHONEME_TO_VISEME.map Prod.snd, x ∈ VISEME_CATEGORIES := by
      decide
    exact hall v hv

/-!  Claim theorems. -/

/-- C2: for every total duration `D > 0` at the fixed frame rate `FPS = 8`,
`render_sequence` produces exactly `ceil(D * FPS)` frame samples,
independent of the viseme timeline (the timeline `vs` is arbitrary); in
particular `ceil(2.53 * 8) = 21`. -/
theorem render_sequence_frame_count (vs : List Viseme) (D : ℚ)
    (hD : 0 < D) :
    (∃ fr, render_sequence vs D = some fr ∧ (fr.length : ℤ) = ⌈D * FPS⌉) ∧
    (⌈(253 / 100 : ℚ) * FPS⌉ : ℤ) = 21 := by
  constructor
  · have hpos : (0 : ℤ) < ⌈D * FPS⌉ :=
      Int.ceil_pos.mpr (mul_pos hD (by norm_num [FPS]))
    refine ⟨(List.range (⌈D * FPS⌉ : ℤ).toNat).map
      (fun i : ℕ => activeViseme vs ((i : ℚ) / FPS)), ?_, ?_⟩
    · rw [render_sequence, if_pos hpos]
    · rw [List.length_map, List.length_range]
      exact Int.toNat_of_nonneg (le_of_lt hpos)
  · with_unfolding_all decide

/-- Witness for C2 at the concrete scenario `D = 2.53` with a timeline that
runs past `D`. -/
theorem render_sequence_frame_count_witness :
    (∃ fr, render_sequence [⟨"AA", 0, 3⟩] (253 / 100) = some fr ∧
      (fr.length : ℤ) = ⌈(253 / 100 : ℚ) * FPS⌉) ∧
    (⌈(253 / 100 : ℚ) * FPS⌉ : ℤ) = 21 :=
  render_sequence_frame_count [⟨"AA", 0, 3⟩] (253 / 100)
    (by with_unfolding_all decide)

/-- C3 counterexample: on a non-monotonic input (second start `0` precedes
the running maximum start `1`), `smooth_visemes` does NOT fail: it sorts
the input, the monotonicity assertion runs on the sorted list and passes,
and a normal result is returned. -/
theorem smooth_visemes_nonmonotonic_counterexample :
    ¬ SortedStarts [⟨"AA", 1, 2⟩, ⟨"FV", 0, 1⟩] ∧
    smooth_visemes [⟨"AA", 1, 2⟩, ⟨"FV", 0, 1⟩] =
      some [⟨"FV", 0, 1⟩, ⟨"AA", 1, 2⟩] := by
  with_unfolding_all decide

/-- C3 amended: `smooth_visemes` never raises at all.  It re-sorts its
input first, so the subsequent monotonicity assertion is evaluated on the
sorted list and always passes; non-monotonic input is silently repaired by
the sort rather than rejected. -/
theorem smooth_visemes_total (vs : List Viseme) :
    ∃ out, smooth_visemes vs = some out := by
  cases vs with
  | nil => exact ⟨[], rfl⟩
  | cons v rest =>
    have hs : SortedStarts (sortVisemes (v :: rest)) := sortVisemes_sorted _
    obtain ⟨gs, heq1, _, _, hsort1⟩ := merge_spec hs
    have hsort3 : SortedStarts
        (stretch_plosives (enforce_min_duration (gs.map spanP))) :=
      stretch_sorted (enforce_sorted hsort1)
    obtain ⟨gs2, heq2, _, _, _⟩ := merge_spec hsort3
    refine ⟨gs2.map spanP, ?_⟩
    rw [smooth_visemes, if_pos ((sortedByStart_iff _).mpr hs), heq1]
    simpa using heq2

/-- C6: `phonemes_to_visemes` succeeds on every phoneme list with
non-negative durations and returns a same-length list preserving each
phoneme's timing, with the name obtained by normalizing the symbol and
looking it up in the static table, defaulting to "REST"; every resulting
name (for ANY symbol, known or unknown) lies in the fixed category set. -/
theorem phonemes_to_visemes_spec (ps : List Phoneme)
    (h : ∀ p ∈ ps, p.start ≤ p.stop) :
    ∃ vs, phonemes_to_visemes ps = some vs ∧ vs.length = ps.length ∧
      (∀ (i : ℕ) (p : Phoneme), ps[i]? = some p → vs[i]? = some
        { name := (PHONEME_TO_VISEME.lookup (normalize_symbol p.symbol)).getD
            "REST",
          start := p.start, stop := p.stop }) ∧
      (∀ s : String,
        (PHONEME_TO_VISEME.lookup s).getD "REST" ∈ VISEME_CATEGORIES) ∧
      (∀ v ∈ vs, v.name ∈ VISEME_CATEGORIES) := by
  refine ⟨_, phonemes_to_visemes_eq h, by simp, ?_, lookup_getD_mem, ?_⟩
  · intro i p hp
    rw [List.getElem?_map, hp]
    rfl
  · intro v hv
    obtain ⟨p, _, hpv⟩ := List.mem_map.mp hv
    rw [← hpv]
    exact lookup_getD_mem _

/-- Witness for C6 on a stress-marked known symbol and an unknown symbol. -/
theorem phonemes_to_visemes_spec_witness :
    ∃ vs, phonemes_to_visemes [⟨"AH0", 0, 1/2⟩, ⟨"ZZZ", 1/2, 1⟩] = some vs ∧
      vs.length = ([⟨"AH0", 0, 1/2⟩, ⟨"ZZZ", 1/2, 1⟩] :
        List Phoneme).length ∧
      (∀ (i : ℕ) (p : Phoneme),
        ([⟨"AH0", 0, 1/2⟩, ⟨"ZZZ", 1/2, 1⟩] : List Phoneme)[i]? = some p →
        vs[i]? = some
          { name :=
              (PHONEME_TO_VISEME.lookup (normalize_symbol p.symbol)).getD
                "REST",
            start := p.start, stop := p.stop }) ∧
      (∀ s : String,
        (PHONEME_TO_VISEME.lookup s).getD "REST" ∈ VISEME_CATEGORIES) ∧
      (∀ v ∈ vs, v.name ∈ VISEME_CATEGORIES) :=
  phonemes_to_visemes_spec [⟨"AH0", 0, 1/2⟩, ⟨"ZZZ", 1/2, 1⟩]
    (by with_unfolding_all decide)

/-- C8: the single phoneme `("P", 0.0, 0.05)` maps to PBM; the
minimum-duration pass extends its end to `0.08 = 2/25`; the plosive
stretch extends it further to `0.096 = 12/125 = 0.08 + 0.08 * 0.2`; and
`smooth_visemes` on the mapped input returns exactly that one interval. -/
theorem single_plosive_scenario :
    phonemes_to_visemes [⟨"P", 0, 1/20⟩] = some [⟨"PBM", 0, 1/20⟩] ∧
    enforce_min_duration [⟨"PBM", 0, 1/20⟩] = [⟨"PBM", 0, 2/25⟩] ∧
    stretch_plosives [⟨"PBM", 0, 2/25⟩] = [⟨"PBM", 0, 12/125⟩] ∧
    (2/25 : ℚ) = 8/100 ∧
    (12/125 : ℚ) = 8/100 + 8/100 * (2/10) ∧
    smooth_visemes [⟨"PBM", 0, 1/20⟩] = some [⟨"PBM", 0, 12/125⟩] := by
  with_unfolding_all decide

/-- C9: the minimum-duration and plosive-stretch passes preserve length;
each output element is the per-element step applied to the corresponding
input element with the NEXT start read from the pass's own input list; and
the steps never change an element's name or start. -/
theorem passes_pointwise_frame_effect (l : List Viseme) :
    (enforce_min_duration l).length = l.length ∧
    (stretch_plosives l).length = l.length ∧
    (∀ i : ℕ, (enforce_min_duration l)[i]? = (l[i]?).map (fun v =>
      enforceStep v ((l[i + 1]?).map (fun w => w.start)))) ∧
    (∀ i : ℕ, (stretch_plosives l)[i]? = (l[i]?).map (fun v =>
      stretchStep v ((l[i + 1]?).map (fun w => w.start)))) ∧
    (∀ (v : Viseme) (ns : Option ℚ),
      (enforceStep v ns).name = v.name ∧ (enforceStep v ns).start = v.start ∧
      (stretchStep v ns).name = v.name ∧ (stretchStep v ns).start = v.start) :=
  ⟨enforce_length l, stretch_length l, enforce_getElem l, stretch_getElem l,
    fun v ns => ⟨enforceStep_name v ns, enforceStep_start v ns,
      stretchStep_name v ns, stretchStep_start v ns⟩⟩

/-- C10: on sorted input the merge pass succeeds, applying it a second
time returns its own output unchanged, and no two consecutive output
intervals satisfy the merge condition (same name within tolerance). -/
theorem merge_adjacent_identical_idempotent (l : List Viseme)
    (h : SortedStarts l) :
    ∃ out, merge_adjacent_identical l = some out ∧
      merge_adjacent_identical out = some out ∧
      List.Chain' mergeBreak out := by
  obtain ⟨gs, heq, _, hbrk, hsort⟩ := merge_spec h
  refine ⟨gs.map spanP, heq, ?_, hbrk⟩
  cases hgs : gs.map spanP with
  | nil => rfl
  | cons c rest2 =>
    rw [merge_adjacent_identical]
    exact mergeLoop_fixed rest2 c (hgs ▸ hsort) (hgs ▸ hbrk)

/-- Witness for C10 on a sorted timeline with a mergeable pair. -/
theorem merge_adjacent_identical_idempotent_witness :
    ∃ out, merge_adjacent_identical [⟨"AA", 0, 1⟩, ⟨"AA", 1, 2⟩] =
        some out ∧
      merge_adjacent_identical out = some out ∧
      List.Chain' mergeBreak out :=
  merge_adjacent_identical_idempotent [⟨"AA", 0, 1⟩, ⟨"AA", 1, 2⟩]
    (by with_unfolding_all decide)

/-- C1: on sorted non-overlapping input, every stage of `smooth_visemes`
(the two merges, the minimum-duration pass and the plosive stretch)
yields a sorted, pairwise non-overlapping sequence, and so does the final
result of `smooth_visemes`. -/
theorem smooth_visemes_preserves_nonoverlap (vs : List Viseme)
    (h : List.Chain' disjointBefore vs) :
    ∃ s1, merge_adjacent_identical vs = some s1 ∧
      List.Pairwise disjointBefore s1 ∧
      List.Pairwise disjointBefore (enforce_min_duration s1) ∧
      List.Pairwise disjointBefore
        (stretch_plosives (enforce_min_duration s1)) ∧
      ∃ s4, merge_adjacent_identical
          (stretch_plosives (enforce_min_duration s1)) = some s4 ∧
        List.Pairwise disjointBefore s4 ∧ smooth_visemes vs = some s4 := by
  have hs : SortedStarts vs := chain'_disjoint_sorted h
  obtain ⟨gs, heq1, hfl1, _, _⟩ := merge_spec hs
  have hchain1 : List.Chain' disjointBefore (gs.map spanP) :=
    merge_chain_disjoint gs (by rw [← hfl1]; exact chain'_disjoint_pairwise h)
  have hchain2 := enforce_chain_disjoint hchain1
  have hchain3 := stretch_chain_disjoint hchain2
  obtain ⟨gs2, heq2, hfl2, _, _⟩ :=
    merge_spec (chain'_disjoint_sorted hchain3)
  have hchain4 : List.Chain' disjointBefore (gs2.map spanP) :=
    merge_chain_disjoint gs2
      (by rw [← hfl2]; exact chain'_disjoint_pairwise hchain3)
  refine ⟨gs.map spanP, heq1, chain'_disjoint_pairwise hchain1,
    chain'_disjoint_pairwise hchain2, chain'_disjoint_pairwise hchain3,
    gs2.map spanP, heq2, chain'_disjoint_pairwise hchain4, ?_⟩
  rw [smooth_eq_of_sorted hs, heq1]
  simpa using heq2

/-- Witness for C1 on a concrete sorted non-overlapping timeline. -/
theorem smooth_visemes_preserves_nonoverlap_witness :
    ∃ s1, merge_adjacent_identical [⟨"AA", 0, 1⟩, ⟨"PBM", 1, 3/2⟩] =
        some s1 ∧
      List.Pairwise disjointBefore s1 ∧
      List.Pairwise disjointBefore (enforce_min_duration s1) ∧
      List.Pairwise disjointBefore
        (stretch_plosives (enforce_min_duration s1)) ∧
      ∃ s4, merge_adjacent_identical
          (stretch_plosives (enforce_min_duration s1)) = some s4 ∧
        List.Pairwise disjointBefore s4 ∧
        smooth_visemes [⟨"AA", 0, 1⟩, ⟨"PBM", 1, 3/2⟩] = some s4 :=
  smooth_visemes_preserves_nonoverlap [⟨"AA", 0, 1⟩, ⟨"PBM", 1, 3/2⟩]
    (by with_unfolding_all decide)

/-- C4: frame `i` of `render_sequence` samples the timeline at
`t = i / FPS`; the active category is the name of the FIRST interval in
scan order with `start <= t < stop` (half-open), and it is `none` exactly
when no interval contains `t`. -/
theorem render_frame_first_match (vs : List Viseme) (D : ℚ)
    (fr : List (Option String)) (hr : render_sequence vs D = some fr)
    (i : ℕ) (hi : i < fr.length) :
    fr[i]? = some (activeViseme vs ((i : ℚ) / FPS)) ∧
    (activeViseme vs ((i : ℚ) / FPS) = none ↔
      ∀ v ∈ vs, ¬(v.start ≤ (i : ℚ) / FPS ∧ (i : ℚ) / FPS < v.stop)) ∧
    (∀ n : String, activeViseme vs ((i : ℚ) / FPS) = some n ↔
      ∃ (j : ℕ) (w : Viseme), vs[j]? = some w ∧
        (w.start ≤ (i : ℚ) / FPS ∧ (i : ℚ) / FPS < w.stop) ∧ n = w.name ∧
        ∀ (k : ℕ) (u : Viseme), k < j → vs[k]? = some u →
          ¬(u.start ≤ (i : ℚ) / FPS ∧ (i : ℚ) / FPS < u.stop)) := by
  refine ⟨?_, ?_, ?_⟩
  · by_cases hpos : (0 : ℤ) < ⌈D * FPS⌉
    · rw [render_sequence, if_pos hpos] at hr
      rw [Option.some_inj] at hr
      rw [← hr] at hi ⊢
      rw [List.length_map, List.length_range] at hi
      rw [List.getElem?_map, List.getElem?_range hi]
      rfl
    · rw [render_sequence, if_neg hpos] at hr
      exact absurd hr (by simp)
  · rw [activeViseme, Option.map_eq_none']
    rw [List.find?_eq_none]
    constructor
    · intro hnone v hv
      have := hnone v hv
      simpa using this
    · intro hnone v hv
      simpa using hnone v hv
  · intro n
    rw [activeViseme, Option.map_eq_some']
    constructor
    · rintro ⟨x, hx, hname⟩
      obtain ⟨j, hj, hpx, hmin⟩ := (find?_first_iff _ vs x).mp hx
      refine ⟨j, x, hj, by simpa using hpx, hname.symm, ?_⟩
      intro k u hk hu
      have := hmin k u hk hu
      simpa using this
    · rintro ⟨j, w, hj, hcond, hn, hmin⟩
      refine ⟨w, (find?_first_iff _ vs w).mpr ⟨j, hj, by simpa using hcond,
        ?_⟩, hn.symm⟩
      intro k u hk hu
      have := hmin k u hk hu
      simpa using this

/-- Witness for C4: a one-interval timeline sampled at frame 0. -/
theorem render_frame_first_match_witness :
    ([some "AA", some "AA", some "AA", some "AA"] :
        List (Option String))[0]? =
      some (activeViseme [⟨"AA", 0, 1⟩] ((0 : ℕ) / FPS)) ∧
    (activeViseme [⟨"AA", 0, 1⟩] ((0 : ℕ) / FPS) = none ↔
      ∀ v ∈ [(⟨"AA", 0, 1⟩ : Viseme)],
        ¬(v.start ≤ (0 : ℕ) / FPS ∧ (0 : ℕ) / FPS < v.stop)) ∧
    (∀ n : String, activeViseme [⟨"AA", 0, 1⟩] ((0 : ℕ) / FPS) = some n ↔
      ∃ (j : ℕ) (w : Viseme), ([(⟨"AA", 0, 1⟩ : Viseme)])[j]? = some w ∧
        (w.start ≤ (0 : ℕ) / FPS ∧ (0 : ℕ) / FPS < w.stop) ∧ n = w.name ∧
        ∀ (k : ℕ) (u : Viseme), k < j →
          ([(⟨"AA", 0, 1⟩ : Viseme)])[k]? = some u →
          ¬(u.start ≤ (0 : ℕ) / FPS ∧ (0 : ℕ) / FPS < u.stop)) :=
  render_frame_first_match [⟨"AA", 0, 1⟩] (1/2)
    [some "AA", some "AA", some "AA", some "AA"]
    (by with_unfolding_all decide) 0 (by decide)

/-- C5: on valid (sorted, non-overlapping, non-negative-duration) input,
every interval of the output of `smooth_visemes` that has a successor has
duration at least `MIN_VISEME_DURATION` or ends exactly at its
successor's start; and in the minimum-duration pass the LAST interval,
when shorter than the threshold, is extended unconditionally to
`start + MIN_VISEME_DURATION`. -/
theorem smooth_visemes_min_duration (vs out : List Viseme)
    (h : List.Chain' disjointBefore vs) (hd : ∀ v ∈ vs, v.start ≤ v.stop)
    (hout : smooth_visemes vs = some out) :
    List.Chain' minDurOk out ∧
    (∀ (l : List Viseme) (a : Viseme), l.getLast? = some a →
      a.stop - a.start < MIN_VISEME_DURATION →
      (enforce_min_duration l).getLast? =
        some { name := a.name, start := a.start,
               stop := a.start + MIN_VISEME_DURATION }) := by
  constructor
  · have hs : SortedStarts vs := chain'_disjoint_sorted h
    obtain ⟨gs, heq1, hfl1, _, _⟩ := merge_spec hs
    have hchain1 : List.Chain' disjointBefore (gs.map spanP) :=
      merge_chain_disjoint gs
        (by rw [← hfl1]; exact chain'_disjoint_pairwise h)
    have hdur1 : ∀ v ∈ gs.map spanP, v.start ≤ v.stop :=
      merge_durs gs (by rw [← hfl1]; exact hd)
    have hchain2 := enforce_chain_disjoint hchain1
    have hdur2 := enforce_durs (chain'_disjoint_sorted hchain1) hdur1
    have hQ2 := enforce_minDur hchain1
    have hchain3 := stretch_chain_disjoint hchain2
    have hdur3 := stretch_durs (chain'_disjoint_sorted hchain2) hdur2
    have hQ3 := stretch_minDur hchain2 hdur2 hQ2
    obtain ⟨gs2, heq2, hfl2, _, _⟩ :=
      merge_spec (chain'_disjoint_sorted hchain3)
    have hQ4 : List.Chain' minDurOk (gs2.map spanP) :=
      merge_minDur gs2
        (by rw [← hfl2]; exact chain'_disjoint_pairwise hchain3)
        (by rw [← hfl2]; exact hdur3) (by rw [← hfl2]; exact hQ3)
    have hsmooth : smooth_visemes vs = some (gs2.map spanP) := by
      rw [smooth_eq_of_sorted hs, heq1]
      simpa using heq2
    have hoeq : out = gs2.map spanP :=
      Option.some_inj.mp (hout.symm.trans hsmooth)
    rw [hoeq]
    exact hQ4
  · intro l a
    induction l with
    | nil =>
      intro hl _
      simp at hl
    | cons v rest ih =>
      intro hl hd2
      cases rest with
      | nil =>
        simp at hl
        rw [← hl] at hd2 ⊢
        have hlt : ¬ MIN_VISEME_DURATION ≤ v.stop - v.start :=
          not_le.mpr hd2
        rw [enforce_min_duration]
        simp [enforceStep_of_lt v _ hlt, enforce_min_duration]
      | cons w rest2 =>
        rw [List.getLast?_cons_cons] at hl
        have hrec := ih hl hd2
        rw [enforce_min_duration]
        have hcons : enforce_min_duration (w :: rest2) =
            enforceStep w ((rest2.head?).map (fun u => u.start)) ::
              enforce_min_duration rest2 := rfl
        rw [hcons, List.getLast?_cons_cons, ← hcons]
        exact hrec

/-- Witness for C5: a short interval clipped by its neighbor. -/
theorem smooth_visemes_min_duration_witness :
    List.Chain' minDurOk [⟨"AA", 0, 2/25⟩, ⟨"AA", 1, 2⟩] ∧
    (∀ (l : List Viseme) (a : Viseme), l.getLast? = some a →
      a.stop - a.start < MIN_VISEME_DURATION →
      (enforce_min_duration l).getLast? =
        some { name := a.name, start := a.start,
               stop := a.start + MIN_VISEME_DURATION }) :=
  smooth_visemes_min_duration [⟨"AA", 0, 1/100⟩, ⟨"AA", 1, 2⟩]
    [⟨"AA", 0, 2/25⟩, ⟨"AA", 1, 2⟩] (by with_unfolding_all decide)
    (by with_unfolding_all decide) (by with_unfolding_all decide)

/-- C7: per-pass duration monotonicity on valid input — in the two
length-preserving passes no element's end decreases, and in the merge
pass each output interval's end is the maximum of the ends of the group
of input intervals it merges. -/
theorem smoothing_passes_duration_monotone (l : List Viseme)
    (h : List.Chain' disjointBefore l) (hd : ∀ v ∈ l, v.start ≤ v.stop) :
    (∀ (i : ℕ) (v w : Viseme), l[i]? = some v →
      (enforce_min_duration l)[i]? = some w → v.stop ≤ w.stop) ∧
    (∀ (i : ℕ) (v w : Viseme), l[i]? = some v →
      (stretch_plosives l)[i]? = some w → v.stop ≤ w.stop) ∧
    ∃ gs, merge_adjacent_identical l = some (gs.map spanP) ∧
      l = gflat gs ∧
      ∀ p ∈ gs, (spanP p).stop ∈ (p.1 :: p.2).map (fun v => v.stop) ∧
        ∀ u ∈ p.1 :: p.2, u.stop ≤ (spanP p).stop := by
  refine ⟨?_, ?_, ?_⟩
  · intro i v w hv hw
    rw [enforce_getElem, hv, Option.map_some'] at hw
    rw [Option.some_inj] at hw
    rw [← hw]
    apply le_enforceStep_stop
    intro s hs2
    cases hu : l[i + 1]? with
    | none =>
      rw [hu] at hs2
      simp at hs2
    | some u =>
      rw [hu] at hs2
      simp at hs2
      rw [← hs2]
      exact (chain'_rel_getElem h i v u hv hu).2
  · intro i v w hv hw
    rw [stretch_getElem, hv, Option.map_some'] at hw
    rw [Option.some_inj] at hw
    rw [← hw]
    apply le_stretchStep_stop v _ (hd v (List.getElem?_mem hv))
    intro s hs2
    cases hu : l[i + 1]? with
    | none =>
      rw [hu] at hs2
      simp at hs2
    | some u =>
      rw [hu] at hs2
      simp at hs2
      rw [← hs2]
      exact (chain'_rel_getElem h i v u hv hu).2
  · obtain ⟨gs, heq, hfl, _, _⟩ := merge_spec (chain'_disjoint_sorted h)
    refine ⟨gs, heq, hfl, ?_⟩
    intro p hp
    constructor
    · rw [spanP_stop]
      rcases spanStop_mem p.2 p.1.stop with hm | ⟨v, hv, hm⟩
      · rw [hm]
        simp
      · rw [hm]
        simp only [List.map_cons, List.mem_cons]
        right
        exact List.mem_map.mpr ⟨v, hv, rfl⟩
    · intro u hu
      rw [spanP_stop]
      rcases List.mem_cons.mp hu with h2 | h2
      · rw [h2]
        exact le_spanStop _ _
      · exact stop_le_spanStop _ _ _ h2

/-- Witness for C7 on a two-interval valid timeline. -/
theorem smoothing_passes_duration_monotone_witness :
    (∀ (i : ℕ) (v w : Viseme),
      ([⟨"PBM", 0, 1/100⟩, ⟨"AA", 1, 2⟩] : List Viseme)[i]? = some v →
      (enforce_min_duration [⟨"PBM", 0, 1/100⟩, ⟨"AA", 1, 2⟩])[i]? =
        some w → v.stop ≤ w.stop) ∧
    (∀ (i : ℕ) (v w : Viseme),
      ([⟨"PBM", 0, 1/100⟩, ⟨"AA", 1, 2⟩] : List Viseme)[i]? = some v →
      (stretch_plosives [⟨"PBM", 0, 1/100⟩, ⟨"AA", 1, 2⟩])[i]? = some w →
      v.stop ≤ w.stop) ∧
    ∃ gs, merge_adjacent_identical [⟨"PBM", 0, 1/100⟩, ⟨"AA", 1, 2⟩] =
        some (gs.map spanP) ∧
      ([⟨"PBM", 0, 1/100⟩, ⟨"AA", 1, 2⟩] : List Viseme) = gflat gs ∧
      ∀ p ∈ gs, (spanP p).stop ∈ (p.1 :: p.2).map (fun v => v.stop) ∧
        ∀ u ∈ p.1 :: p.2, u.stop ≤ (spanP p).stop :=
  smoothing_passes_duration_monotone [⟨"PBM", 0, 1/100⟩, ⟨"AA", 1, 2⟩]
    (by with_unfolding_all decide) (by with_unfolding_all decide)

end Pipeline
